import Mathlib

/-!
Verification of the client-side orchestration layer of the treasury label
analysis frontend.  The definitions below are a shallow embedding of:

* `src/frontend/src/utils/compress.js`  (image preprocessor),
* `src/frontend/src/utils/api.js`       (job client, upload scheduler, and
  the `useAnalysis` controller state machine),
* `src/unnamed/part_000`                (`UploadZone`: file acceptance and
  CSV reference-row parsing).

JavaScript `Map`s are embedded as association lists with unique keys,
numbers as `Nat`/`Int` (the only fractional computations — `Math.round`
of a scaled dimension and of elapsed milliseconds — are embedded as exact
rational rounding, `jsRound`), and the cooperative async scheduling of the
upload loop as a small-step relation driven by an adversarial choice
function that decides which in-flight request settles first.
-/

/-- `Math.round (num / den)` for nonnegative `num` and positive `den`,
computed exactly: `floor (num / den + 1 / 2)`. -/
def jsRound (num den : Nat) : Nat := (2 * num + den) / (2 * den)

/- ## ImagePreprocessor  (`compress.js`) -/

/-- The fields of a browser `File` that `compress.js` reads. -/
structure JsFile where
  name : String
  mimeType : String
  byteSize : Nat
  lastModified : Nat
deriving DecidableEq

/-- The outcome of the browser image decode (`img.onload` vs `img.onerror`).
On success the decoded natural dimensions are available. -/
inductive DecodeOutcome where
  | failed
  | decoded (width height : Nat)
deriving DecidableEq

/-- The outcome of `canvas.toBlob` (`null` blob on encode failure). -/
inductive EncodeOutcome where
  | failed
  | encoded
deriving DecidableEq

/-- What `compressImage` resolves with: either the original input `File`
unchanged, or a freshly constructed JPEG `File` (name, media type,
modification timestamp, pixel dimensions, encoder quality). -/
inductive CompressOut where
  | original (f : JsFile)
  | jpeg (name : String) (mimeType : String) (lastModified : Nat)
      (width height : Nat) (quality : ℚ)
deriving DecidableEq

def MAX_DIMENSION : Nat := 1600

def JPEG_QUALITY : ℚ := 85 / 100

/-- `file.name.replace(/\.[^.]+$/, '')` on the character list: drop a final
dot followed by a nonempty run of non-dot characters, if present. -/
def stripExtList (cs : List Char) : List Char :=
  let rev := cs.reverse
  let ext := rev.takeWhile (fun c => c ≠ '.')
  match rev.dropWhile (fun c => c ≠ '.') with
  | '.' :: rem => if ext = [] then cs else rem.reverse
  | _ => cs

def stripExt (name : String) : String := ⟨stripExtList name.data⟩

/-- The dimension computation of `img.onload`: if the longest edge exceeds
1600, both dimensions are multiplied by the uniform factor `1600 / longest`
and rounded; otherwise they are unchanged. -/
def scaleDims (width height : Nat) : Nat × Nat :=
  let longest := max width height
  if MAX_DIMENSION < longest then
    (jsRound (width * MAX_DIMENSION) longest,
     jsRound (height * MAX_DIMENSION) longest)
  else (width, height)

/-- JavaScript `s.startsWith(p)`: the characters of `p` are an initial
segment of the characters of `s`. -/
def startsWithJs (s p : String) : Bool := s.data.take p.data.length == p.data

/-- `compressImage` from `compress.js`, with the two async environment
outcomes (image decode, canvas encode) made explicit parameters.  The
function is total: every path of the source resolves the promise (there is
no `reject` call and no throwing path), which the embedding reflects by
returning a plain value. -/
def compressImage (f : JsFile) (dec : DecodeOutcome) (enc : EncodeOutcome) :
    CompressOut :=
  if !(startsWithJs f.mimeType "image/") then .original f
  else
    match dec with
    | .failed => .original f
    | .decoded w h =>
      match enc with
      | .failed => .original f
      | .encoded =>
        let dims := scaleDims w h
        .jpeg (stripExt f.name ++ ".jpg") "image/jpeg" f.lastModified
          dims.1 dims.2 JPEG_QUALITY

/- ## UploadZone  (`src/unnamed/part_000`) -/

def ALLOWED_IMAGE_TYPES : List String := ["image/jpeg", "image/png", "image/webp"]

def MAX_FILES : Nat := 300

def REQUIRED_CSV_COLUMN : String := "label_id"

def RECOGNIZED_CSV_COLUMNS : List String :=
  ["label_id", "brand_name", "class_type", "alcohol_content",
   "net_contents", "producer_name", "producer_address"]

/-- The dedup key `f.name + f.size` (string concatenation of name and the
decimal rendering of the byte size). -/
def fileKey (f : JsFile) : String := f.name ++ Nat.repr f.byteSize

/-- The `setFiles` updater of `UploadZone.addFiles`: filter the incoming
batch to the allowed image media types, dedup against the already-accepted
set by name+size, and either append the survivors or — when the merge
exceeds `MAX_FILES` — reject the entire incoming addition, leaving the
accepted set unchanged.  (The CSV side channel of `addFiles` is separate
state, embedded below as `handleCsvRows`.) -/
def addFiles (prev fileList : List JsFile) : List JsFile :=
  let images := fileList.filter (fun f => ALLOWED_IMAGE_TYPES.contains f.mimeType)
  if images.length = 0 then prev
  else
    let existingNames := prev.map fileKey
    let deduped := images.filter (fun f => !(existingNames.contains (fileKey f)))
    let merged := prev ++ deduped
    if MAX_FILES < merged.length then prev else merged

/-- A parsed CSV record (PapaParse `header: true` row object): an ordered
association of column name to cell string. -/
abbrev CsvRow := List (String × String)

/-- `row[col]`: `none` embeds JavaScript `undefined`. -/
def rowGet (r : CsvRow) (c : String) : Option String :=
  (r.find? (fun p => p.1 == c)).map (fun p => p.2)

/-- An ASCII whitespace character (the core of the character class that
JavaScript `String.prototype.trim` removes). -/
def isJsSpace (c : Char) : Bool :=
  c == ' ' || c == '\t' || c == '\n' || c == '\r' || c == '\x0b' || c == '\x0c'

/-- JavaScript `v.trim()`: remove leading and trailing whitespace. -/
def trimJs (s : String) : String :=
  ⟨((s.data.dropWhile isJsSpace).reverse.dropWhile isJsSpace).reverse⟩

/-- The per-row filtering of `handleCsvFile`: keep only the recognized
columns whose cell is present and not the empty string, storing the
trimmed value. -/
def cleanRow (row : CsvRow) : CsvRow :=
  RECOGNIZED_CSV_COLUMNS.foldl
    (fun out col =>
      match rowGet row col with
      | some v => if v ≠ "" then out ++ [(col, trimJs v)] else out
      | none => out)
    []

/-- Result of CSV acceptance: either an error message (`setCsvError`) or
the accepted cleaned rows (`setCsvRows`). -/
inductive CsvOutcome where
  | rejected (msg : String)
  | accepted (rows : List CsvRow)
deriving DecidableEq

/-- The `complete` callback of `Papa.parse` inside `handleCsvFile`:
reject on parse errors, empty input, missing mandatory column, or a row
count above the ceiling; otherwise clean every row and drop rows whose
`label_id` is absent or falsy (the empty string). -/
def handleCsvRows (parseErrors : List String) (rows : List CsvRow) : CsvOutcome :=
  match parseErrors with
  | e :: _ => .rejected ("CSV parse error: " ++ e)
  | [] =>
    if rows.length = 0 then .rejected "CSV file is empty."
    else
      let columns := (rows.headD []).map (fun p => p.1)
      if ¬ columns.contains REQUIRED_CSV_COLUMN then
        .rejected ("Missing required column \"" ++ REQUIRED_CSV_COLUMN ++
          "\". Found columns: " ++ String.intercalate ", " columns ++
          ". Expected: " ++ String.intercalate ", " RECOGNIZED_CSV_COLUMNS)
      else if MAX_FILES < rows.length then
        .rejected ("CSV has " ++ Nat.repr rows.length ++
          " rows but maximum is " ++ Nat.repr MAX_FILES ++
          ". Please reduce the number of rows.")
      else
        .accepted (((rows.map cleanRow).filter
          (fun r =>
            match rowGet r REQUIRED_CSV_COLUMN with
            | some v => v != ""
            | none => false)))

/- ## UploadScheduler  (`uploadAllChunked` in `api.js`) -/

def CHUNK_SIZE : Nat := 3

def MAX_CONCURRENT : Nat := 4

/-- One chunk of the partition built by the first loop of
`uploadAllChunked`: the files at positions `i, i+1, …` (fewer than
`CHUNK_SIZE` past the end), each paired with its client index `j`. -/
def chunkAt (files : List String) (i : Nat) : List (String × Nat) :=
  (List.range' i (min (i + CHUNK_SIZE) files.length - i)).map
    (fun j => (files.getD j "", j))

/-- The chunk-partition loop `for (i = 0; i < files.length; i += CHUNK_SIZE)`. -/
def mkChunksAux (files : List String) (i : Nat) : List (List (String × Nat)) :=
  if h : i < files.length then
    chunkAt files i :: mkChunksAux files (i + CHUNK_SIZE)
  else []
termination_by files.length - i
decreasing_by simp [CHUNK_SIZE]; omega

def mkChunks (files : List String) : List (List (String × Nat)) :=
  mkChunksAux files 0

/-- Observable actions of the scheduler: issuing the upload request for a
chunk, a chunk request settling (with its success flag — a failure is
logged and the batch continues), and the final `completeJob` call. -/
inductive SAct where
  | start (chunk : Nat)
  | settle (chunk : Nat) (ok : Bool)
  | callComplete
deriving DecidableEq, Repr

/-- Scheduler state: the next chunk index to issue (`chunkIndex`), the
in-flight set (`active`, holding the `_idx` tags of outstanding requests),
and the trace of actions so far. -/
structure SchedState where
  nextChunk : Nat
  active : List Nat
  trace : List SAct
deriving DecidableEq

/-- The inner top-up loop:
`while (active.length < MAX_CONCURRENT && chunkIndex < chunks.length)`
issue the next chunk. -/
def fill (numChunks : Nat) (s : SchedState) : SchedState :=
  if h : s.active.length < MAX_CONCURRENT ∧ s.nextChunk < numChunks then
    fill numChunks
      { nextChunk := s.nextChunk + 1,
        active := s.active ++ [s.nextChunk],
        trace := s.trace ++ [.start s.nextChunk] }
  else s
termination_by numChunks - s.nextChunk
decreasing_by omega

/-- One iteration of the outer loop: top up the in-flight set, then — if
anything is in flight — `Promise.race` settles one request.  Which one
settles first, and whether it succeeded, is decided by the adversarial
choice `c`; the settled request is removed by its `_idx` tag
(`active.filter (p => p._idx !== settled.idx)`). -/
def raceStep (numChunks : Nat) (s : SchedState) (c : Nat × Bool) : SchedState :=
  let s1 := fill numChunks s
  if s1.active.length = 0 then s1
  else
    let idx := s1.active.getD (c.1 % s1.active.length) 0
    { s1 with
        active := s1.active.filter (fun j => j != idx),
        trace := s1.trace ++ [.settle idx c.2] }

/-- The outer loop
`while (chunkIndex < chunks.length || active.length > 0)`, run with an
explicit iteration budget.  Every guarded iteration settles exactly one of
the `numChunks` requests, so a budget of `numChunks` makes the guard false
at exit; this adequacy is proved below (`schedLoop_drains`), so the fueled
loop coincides with the source's unbounded `while`. -/
def schedLoopAux (numChunks : Nat) (choice : Nat → Nat × Bool) :
    Nat → Nat → SchedState → SchedState
  | 0, _, s => s
  | fuel + 1, k, s =>
    if s.nextChunk < numChunks ∨ s.active ≠ [] then
      schedLoopAux numChunks choice fuel (k + 1) (raceStep numChunks s (choice k))
    else s

/-- `uploadAllChunked(jobId, files)` under an adversarial settle schedule:
partition into chunks, drive the bounded worker pool to completion, then
call `completeJob` exactly once. -/
def uploadAllChunked (jobId : String) (files : List String)
    (choice : Nat → Nat × Bool) : SchedState :=
  let _ := jobId
  let numChunks := (mkChunks files).length
  let s := schedLoopAux numChunks choice numChunks 0 ⟨0, [], []⟩
  { s with trace := s.trace ++ [SAct.callComplete] }

/-- Number of `start i` actions in a trace. -/
def startsOf (t : List SAct) (i : Nat) : Nat :=
  t.countP (fun a => match a with | .start j => j == i | _ => false)

/-- Number of `settle i _` actions in a trace. -/
def settlesOf (t : List SAct) (i : Nat) : Nat :=
  t.countP (fun a => match a with | .settle j _ => j == i | _ => false)

/-- Total number of upload requests issued in a trace. -/
def startsTotal (t : List SAct) : Nat :=
  t.countP (fun a => match a with | .start _ => true | _ => false)

/-- Total number of requests settled in a trace. -/
def settlesTotal (t : List SAct) : Nat :=
  t.countP (fun a => match a with | .settle _ _ => true | _ => false)

/-- Number of `completeJob` calls in a trace. -/
def completions (t : List SAct) : Nat :=
  t.countP (fun a => match a with | .callComplete => true | _ => false)

/- ## AnalysisController  (`useAnalysis` in `api.js`) -/

/-- `status`: `idle | uploading | streaming | complete | error`. -/
inductive Status where
  | idle
  | uploading
  | streaming
  | complete
  | error
deriving DecidableEq

/-- A stored result: the parsed payload of a `result` event, or the parsed
payload of a data-carrying `error` event tagged `_error: true`. -/
inductive ResultRecord where
  | success (payload : String)
  | failure (payload : String)
deriving DecidableEq

/-- The parsed payload of a `done` event
(`{unmatched_csv_rows?: [string...]}`). -/
structure DonePayload where
  unmatchedCsvRows : Option (List String)
deriving DecidableEq

/-- The `results` Map (ClientIndex → ResultRecord) as an insertion-ordered
association list; `storeSet` is `Map.set` (replace an existing key in
place, else append). -/
abbrev ResultStore := List (Int × ResultRecord)

def storeSet (m : ResultStore) (k : Int) (v : ResultRecord) : ResultStore :=
  if m.any (fun p => p.1 == k) then
    m.map (fun p => if p.1 == k then (k, v) else p)
  else m ++ [(k, v)]

/-- `Map.size`; the keys are pairwise distinct by construction. -/
def storeSize (m : ResultStore) : Nat := m.length

/-- The state owned by `useAnalysis`: the five `useState` cells that the
claims mention, the three refs, and whether the `EventSource` subscription
is open (`eventSourceRef.current !== null`). -/
structure CtrlState where
  status : Status
  results : ResultStore
  total : Nat
  error : Option String
  duplicateIds : List String
  unmatchedCsvRows : List String
  elapsedSeconds : Option Nat
  donePayload : Option DonePayload
  esOpen : Bool
  startTime : Option Nat
deriving DecidableEq

/-- The stream events a subscription can deliver, as dispatched by the
listeners registered in `analyze`:
`meta`, `result`, a data-carrying `error`, an `error` dispatch whose event
has no data (the handler returns immediately), `done`, and the low-level
`es.onerror` connection callback (with the `readyState === CLOSED` flag). -/
inductive Ev where
  | meta (totalFiles : Nat)
  | result (clientIndex : Int) (payload : String)
  | errorData (clientIndex : Int) (payload : String)
  | errorNoData
  | done (payload : Option DonePayload)
  | connError (closed : Bool)
deriving DecidableEq

/-- The registered event handlers of `analyze` (lines 167–210 of
`api.js`), one `match` arm per listener. -/
def applyEvent (s : CtrlState) (e : Ev) : CtrlState :=
  match e with
  | .meta t => { s with total := t }
  | .result i payload =>
    { s with
        results := storeSet s.results i (.success payload),
        status := if s.status = .uploading then .streaming else s.status }
  | .errorData i payload =>
    if 0 ≤ i then { s with results := storeSet s.results i (.failure payload) }
    else s
  | .errorNoData => s
  | .done p =>
    { s with
        donePayload := match p with | some q => some q | none => s.donePayload,
        esOpen := false }
  | .connError closed => if closed then { s with esOpen := false } else s

/-- The guard of the completion `useEffect`:
`total > 0 && results.size >= total && (status === 'streaming' || status === 'uploading')`. -/
def completeCond (s : CtrlState) : Prop :=
  0 < s.total ∧ s.total ≤ storeSize s.results ∧
    (s.status = .streaming ∨ s.status = .uploading)

instance (s : CtrlState) : Decidable (completeCond s) := by
  unfold completeCond; infer_instance

/-- The completion `useEffect` body (lines 114–133): on the first render
where the guard holds, set status to `complete`, derive the elapsed
seconds from the recorded start timestamp, publish any pending `done`
diagnostics, and close the subscription if still open. -/
def checkComplete (now : Nat) (s : CtrlState) : CtrlState :=
  if completeCond s then
    { s with
        status := .complete,
        elapsedSeconds :=
          (match s.startTime with
           | some t0 => some (jsRound (now - t0) 1000)
           | none => s.elapsedSeconds),
        unmatchedCsvRows :=
          (match s.donePayload with
           | some p =>
             (match p.unmatchedCsvRows with
              | some l => l
              | none => s.unmatchedCsvRows)
           | none => s.unmatchedCsvRows),
        esOpen := false }
  else s

/-- Delivery of one stream event: a closed `EventSource` dispatches
nothing (the browser drops queued events once `readyState` is CLOSED), an
open one runs the registered handler and then the reactive completion
rule.  The effect's dependency array is `[results.size, total, status]` —
exactly the arguments of `completeCond` — so running `checkComplete` after
every delivered event is equivalent to React's run-on-change semantics. -/
def step (now : Nat) (s : CtrlState) (e : Ev) : CtrlState :=
  if s.esOpen then checkComplete now (applyEvent s e) else s

/-- The controller state right after `analyze`'s synchronous prologue and
successful `createJob`: everything reset, `total` set to the file count,
status `uploading`, start timestamp recorded, duplicate-id diagnostic
surfaced, subscription open. -/
def initCtrl (numFiles t0 : Nat) (dupIds : List String) : CtrlState :=
  { status := .uploading, results := [], total := numFiles, error := none,
    duplicateIds := if 0 < dupIds.length then dupIds else [],
    unmatchedCsvRows := [], elapsedSeconds := none, donePayload := none,
    esOpen := true, startTime := some t0 }

/-- `reset()` (lines 135–149): close any open subscription and return to
the empty idle state. -/
def resetCtrl (s : CtrlState) : CtrlState :=
  let _ := s
  { status := .idle, results := [], total := 0, error := none,
    duplicateIds := [], unmatchedCsvRows := [], elapsedSeconds := none,
    donePayload := none, esOpen := false, startTime := none }

/-- The `catch` block of `analyze` (lines 214–221): record the failure
message, set status to `error`, and close any open subscription.  It runs
whenever the awaited pipeline (`createJob` or `uploadAllChunked`, whose
final step is `completeJob`) rejects — whatever the status at that
moment. -/
def catchHandler (s : CtrlState) (msg : String) : CtrlState :=
  { s with error := some msg, status := .error, esOpen := false }

/-- The tail of `analyze` after the subscription is set up:
`await uploadAllChunked(...)` either resolves (no state change) or rejects
into the catch block.  A chunk failure is swallowed inside the scheduler,
so the only rejection reaching this point from the upload phase is a
`completeJob` failure. -/
def analyzeAwaitUpload (s : CtrlState) (uploadResult : Except String Unit) :
    CtrlState :=
  match uploadResult with
  | .ok _ => s
  | .error msg => catchHandler s msg

/-- `progress` (line 111): derived from the store, not counted. -/
def progress (s : CtrlState) : Nat := storeSize s.results

/-- Run the controller over a list of delivered events. -/
def ctrlRun (now : Nat) (s : CtrlState) (evs : List Ev) : CtrlState :=
  evs.foldl (step now) s

/-- The state after the first `i` events of a run. -/
def stateAt (now numFiles t0 : Nat) (dupIds : List String) (evs : List Ev)
    (i : Nat) : CtrlState :=
  ctrlRun now (initCtrl numFiles t0 dupIds) (evs.take i)

/-- The event at position `i` (the default is the inert no-data `error`
dispatch, never consulted at in-range positions). -/
def evAt (evs : List Ev) (i : Nat) : Ev := evs.getD i .errorNoData

/-- The completion transition fires on the step from state `i` to state
`i+1`. -/
def firesAt (now numFiles t0 : Nat) (dupIds : List String) (evs : List Ev)
    (i : Nat) : Prop :=
  (stateAt now numFiles t0 dupIds evs (i + 1)).status = .complete ∧
    (stateAt now numFiles t0 dupIds evs i).status ≠ .complete

/-- The spec's completion condition as worded in the claim: the store has
reached `total_files` while status is `uploading` or `streaming`. -/
def claimCond (s : CtrlState) : Prop :=
  s.total ≤ storeSize s.results ∧
    (s.status = .uploading ∨ s.status = .streaming)


instance (s : CtrlState) : Decidable (claimCond s) := by
  unfold claimCond; infer_instance

/-- The inductive invariant behind the store-size bound: the store never
holds more records than `total`, strictly fewer while the subscription is
still open (at which point the status is necessarily `uploading` or
`streaming`). -/
def C4Inv (s : CtrlState) : Prop :=
  storeSize s.results ≤ s.total ∧
    (s.esOpen = true →
      storeSize s.results < s.total ∧
        (s.status = .uploading ∨ s.status = .streaming))

/-- The incoming files of one `addFiles` call that survive the media-type
filter and the dedup against the already-accepted set. -/
def dedupedOf (prev incoming : List JsFile) : List JsFile :=
  (incoming.filter (fun f => ALLOWED_IMAGE_TYPES.contains f.mimeType)).filter
    (fun f => !((prev.map fileKey).contains (fileKey f)))

/-- The inductive invariant of the upload scheduler, tying the trace to
the loop state: chunk `i` has been issued iff `i < nextChunk` (and exactly
once), every issued chunk is either settled or in flight, `completeJob`
has not been called, and no trace prefix ever shows more than
`MAX_CONCURRENT` requests outstanding. -/
structure SInv (numChunks : Nat) (s : SchedState) : Prop where
  next_le : s.nextChunk ≤ numChunks
  active_le : s.active.length ≤ MAX_CONCURRENT
  starts_i : ∀ i, startsOf s.trace i = if i < s.nextChunk then 1 else 0
  balance_i : ∀ i, startsOf s.trace i = settlesOf s.trace i + s.active.count i
  no_complete : completions s.trace = 0
  starts_tot : startsTotal s.trace = s.nextChunk
  settles_tot : settlesTotal s.trace + s.active.length = s.nextChunk
  bounded : ∀ k, startsTotal (s.trace.take k) ≤
    settlesTotal (s.trace.take k) + MAX_CONCURRENT

/- ## Theorems -/

theorem jsRound_mul_left (L M : Nat) (hL : 0 < L) : jsRound (L * M) L = M := by
  unfold jsRound
  have h1 : 2 * (L * M) + L = L * (2 * M + 1) := by ring
  have h2 : 2 * L = L * 2 := by ring
  rw [h1, h2, Nat.mul_div_mul_left _ _ hL]
  omega

theorem jsRound_le_jsRound {a b : Nat} (d : Nat) (h : a ≤ b) :
    jsRound a d ≤ jsRound b d :=
  Nat.div_le_div_right (by omega)

/-- Claim C5: `compress(file)` never throws and never rejects (the
embedding is a total function — every source path resolves), a non-image
media type is returned unchanged, and decode failure (`img.onerror`) or
encode failure (`toBlob` yielding `null`) fall back to the original,
unmodified file. -/
theorem compress_identity_fallbacks (f : JsFile) (dec : DecodeOutcome)
    (enc : EncodeOutcome) :
    compressImage f dec .failed = .original f
    ∧ compressImage f .failed enc = .original f
    ∧ (startsWithJs f.mimeType "image/" = false →
        compressImage f dec enc = .original f) := by
  refine ⟨?_, ?_, ?_⟩
  · unfold compressImage
    split
    · rfl
    · cases dec <;> rfl
  · unfold compressImage
    split
    · rfl
    · rfl
  · intro hf
    unfold compressImage
    rw [if_pos]
    simp [hf]

theorem compress_identity_fallbacks_witness :
    compressImage ⟨"report.pdf", "application/pdf", 4, 9⟩ (.decoded 5 5) .encoded
      = .original ⟨"report.pdf", "application/pdf", 4, 9⟩ :=
  (compress_identity_fallbacks ⟨"report.pdf", "application/pdf", 4, 9⟩
    (.decoded 5 5) .encoded).2.2 (by decide)

/-- Claim C6: for a decodable image, both output dimensions come from the
single uniform scale factor `1600 / max(width, height)` (rounded) whenever
the longest edge exceeds 1600 — hence both are at most 1600 and the
longest edge becomes exactly 1600 — dimensions at most 1600 are left
unchanged, and the result is re-encoded as JPEG at quality 0.85 with a
`.jpg` name and the original modification timestamp. -/
theorem compress_scaling (f : JsFile) (w h : Nat)
    (himg : startsWithJs f.mimeType "image/" = true) :
    compressImage f (.decoded w h) .encoded =
      .jpeg (stripExt f.name ++ ".jpg") "image/jpeg" f.lastModified
        (scaleDims w h).1 (scaleDims w h).2 JPEG_QUALITY
    ∧ (MAX_DIMENSION < max w h →
        (scaleDims w h).1 = jsRound (w * MAX_DIMENSION) (max w h)
        ∧ (scaleDims w h).2 = jsRound (h * MAX_DIMENSION) (max w h)
        ∧ (scaleDims w h).1 ≤ MAX_DIMENSION
        ∧ (scaleDims w h).2 ≤ MAX_DIMENSION
        ∧ max (scaleDims w h).1 (scaleDims w h).2 = MAX_DIMENSION)
    ∧ (max w h ≤ MAX_DIMENSION → scaleDims w h = (w, h)) := by
  refine ⟨?_, ?_, ?_⟩
  · unfold compressImage
    rw [if_neg (by simp [himg])]
  · intro hL
    have hpos : 0 < max w h := by
      have : (0 : Nat) < MAX_DIMENSION := by decide
      omega
    have h1 : (scaleDims w h).1 = jsRound (w * MAX_DIMENSION) (max w h) := by
      unfold scaleDims
      rw [if_pos hL]
    have h2 : (scaleDims w h).2 = jsRound (h * MAX_DIMENSION) (max w h) := by
      unfold scaleDims
      rw [if_pos hL]
    have hmax : jsRound (max w h * MAX_DIMENSION) (max w h) = MAX_DIMENSION :=
      jsRound_mul_left _ _ hpos
    have hwle : jsRound (w * MAX_DIMENSION) (max w h) ≤ MAX_DIMENSION := by
      have := jsRound_le_jsRound (a := w * MAX_DIMENSION)
        (b := max w h * MAX_DIMENSION) (max w h)
        (Nat.mul_le_mul_right _ (Nat.le_max_left w h))
      omega
    have hhle : jsRound (h * MAX_DIMENSION) (max w h) ≤ MAX_DIMENSION := by
      have := jsRound_le_jsRound (a := h * MAX_DIMENSION)
        (b := max w h * MAX_DIMENSION) (max w h)
        (Nat.mul_le_mul_right _ (Nat.le_max_right w h))
      omega
    refine ⟨h1, h2, by omega, by omega, ?_⟩
    rcases Nat.le_total w h with hwh | hwh
    · have hm : max w h = h := Nat.max_eq_right hwh
      rw [h1, h2, hm]
      rw [hm] at hmax hwle
      rw [hmax]
      exact Nat.max_eq_right hwle
    · have hm : max w h = w := Nat.max_eq_left hwh
      rw [h1, h2, hm]
      rw [hm] at hmax hhle
      rw [hmax]
      exact Nat.max_eq_left hhle
  · intro hle
    unfold scaleDims
    rw [if_neg (by omega)]

theorem compress_scaling_witness :
    (scaleDims 3200 1600).1 ≤ MAX_DIMENSION
    ∧ max (scaleDims 3200 1600).1 (scaleDims 3200 1600).2 = MAX_DIMENSION
    ∧ compressImage ⟨"a.png", "image/png", 9, 7⟩ (.decoded 3200 1600) .encoded =
        .jpeg "a.jpg" "image/jpeg" 7 (scaleDims 3200 1600).1
          (scaleDims 3200 1600).2 JPEG_QUALITY := by
  have hc := compress_scaling ⟨"a.png", "image/png", 9, 7⟩ 3200 1600 (by decide)
  have hs := hc.2.1 (by decide)
  refine ⟨hs.2.2.1, hs.2.2.2.2, ?_⟩
  have := hc.1
  simpa [stripExt, stripExtList] using this

/-- Claim C8: when the deduplicated merge of an incoming addition with the
already-accepted set would exceed 300 files, the entire incoming addition
is rejected and the accepted set is returned exactly unchanged; otherwise
the deduplicated incoming image files are appended after the existing
ones. -/
theorem addFiles_ceiling (prev incoming : List JsFile) :
    (MAX_FILES < (prev ++ dedupedOf prev incoming).length →
      addFiles prev incoming = prev)
    ∧ ((prev ++ dedupedOf prev incoming).length ≤ MAX_FILES →
      addFiles prev incoming = prev ++ dedupedOf prev incoming) := by
  unfold addFiles dedupedOf
  by_cases hz :
      (incoming.filter (fun f => ALLOWED_IMAGE_TYPES.contains f.mimeType)).length = 0
  · have hnil : incoming.filter (fun f => ALLOWED_IMAGE_TYPES.contains f.mimeType) = [] :=
      List.length_eq_zero.mp hz
    rw [if_pos hz]
    constructor
    · intro _
      rfl
    · intro _
      rw [hnil]
      simp
  · rw [if_neg hz]
    constructor
    · intro hover
      rw [if_pos hover]
    · intro hle
      rw [if_neg (by omega)]

set_option maxRecDepth 4000 in
theorem addFiles_ceiling_witness :
    addFiles [] (List.replicate 301 ⟨"a", "image/png", 1, 0⟩) = []
    ∧ addFiles [] [⟨"b", "image/png", 2, 0⟩] = [⟨"b", "image/png", 2, 0⟩] := by
  constructor
  · exact (addFiles_ceiling [] (List.replicate 301 ⟨"a", "image/png", 1, 0⟩)).1
      (by decide)
  · exact (addFiles_ceiling [] [⟨"b", "image/png", 2, 0⟩]).2 (by decide)

theorem cleanRow_aux (row : CsvRow) (cols : List String) (acc : CsvRow)
    (hacc : ∀ p ∈ acc, p.1 ∈ RECOGNIZED_CSV_COLUMNS ∧
      ∃ v, rowGet row p.1 = some v ∧ v ≠ "" ∧ p.2 = trimJs v)
    (hcols : ∀ c ∈ cols, c ∈ RECOGNIZED_CSV_COLUMNS) :
    ∀ p ∈ cols.foldl
      (fun out col =>
        match rowGet row col with
        | some v => if v ≠ "" then out ++ [(col, trimJs v)] else out
        | none => out) acc,
      p.1 ∈ RECOGNIZED_CSV_COLUMNS ∧
        ∃ v, rowGet row p.1 = some v ∧ v ≠ "" ∧ p.2 = trimJs v := by
  induction cols generalizing acc with
  | nil => simpa using hacc
  | cons c cs ih =>
    intro p hp
    simp only [List.foldl_cons] at hp
    refine ih _ ?_ (fun d hd => hcols d (List.mem_cons_of_mem _ hd)) p hp
    intro q hq
    split at hq
    next v heq =>
      split at hq
      next hv =>
        rcases List.mem_append.mp hq with hq | hq
        · exact hacc q hq
        · rcases List.mem_singleton.mp hq with rfl
          exact ⟨hcols c (List.mem_cons_self _ _), v, heq, hv, rfl⟩
      next hv => exact hacc q hq
    next heq => exact hacc q hq

theorem cleanRow_mem (row : CsvRow) :
    ∀ p ∈ cleanRow row,
      p.1 ∈ RECOGNIZED_CSV_COLUMNS ∧
        ∃ v, rowGet row p.1 = some v ∧ v ≠ "" ∧ p.2 = trimJs v := by
  intro p hp
  exact cleanRow_aux row RECOGNIZED_CSV_COLUMNS [] (by simp) (fun c hc => hc) p hp

/-- Claim C9 (amended): for a parse with no errors, at most 300 rows, and
a header containing `label_id`, the accepted output consists of the
cleaned input rows; every retained key is one of the seven recognized
columns and every retained value is the trim of an originally non-empty
cell (a whitespace-only cell is retained as the empty string, which is
what the counterexample below exhibits), and every row whose `label_id`
is missing or empty after trimming is absent from the output. -/
theorem csv_rows_cleaned (rows : List CsvRow) (h1 : rows ≠ [])
    (h2 : rows.length ≤ MAX_FILES)
    (h3 : ((rows.headD []).map (fun p => p.1)).contains REQUIRED_CSV_COLUMN = true) :
    ∃ out, handleCsvRows [] rows = .accepted out
      ∧ (∀ r ∈ out, ∃ r₀, r₀ ∈ rows ∧ r = cleanRow r₀)
      ∧ (∀ r ∈ out, ∀ p ∈ r, p.1 ∈ RECOGNIZED_CSV_COLUMNS
          ∧ ∃ v, v ≠ "" ∧ p.2 = trimJs v)
      ∧ (∀ r ∈ out, ∃ v, rowGet r REQUIRED_CSV_COLUMN = some v ∧ v ≠ "") := by
  have hlen : ¬ rows.length = 0 := by
    intro h
    exact h1 (List.length_eq_zero.mp h)
  refine ⟨(rows.map cleanRow).filter
    (fun r =>
      match rowGet r REQUIRED_CSV_COLUMN with
      | some v => v != ""
      | none => false), ?_, ?_, ?_, ?_⟩
  · unfold handleCsvRows
    rw [if_neg hlen, if_neg (fun hc => hc h3), if_neg (by omega)]
  · intro r hr
    have := (List.mem_filter.mp hr).1
    rcases List.mem_map.mp this with ⟨r₀, hr₀, rfl⟩
    exact ⟨r₀, hr₀, rfl⟩
  · intro r hr p hp
    have := (List.mem_filter.mp hr).1
    rcases List.mem_map.mp this with ⟨r₀, _, rfl⟩
    rcases cleanRow_mem r₀ p hp with ⟨hrec, v, _, hv, htrim⟩
    exact ⟨hrec, v, hv, htrim⟩
  · intro r hr
    have hpred := (List.mem_filter.mp hr).2
    rcases hg : rowGet r REQUIRED_CSV_COLUMN with _ | v
    · rw [hg] at hpred
      simp at hpred
    · rw [hg] at hpred
      simp only [bne_iff_ne] at hpred
      exact ⟨v, rfl, hpred⟩

theorem csv_rows_cleaned_witness :
    ∃ out, handleCsvRows [] [[("label_id", " X ")]] = .accepted out
      ∧ (∀ r ∈ out, ∃ r₀, r₀ ∈ [[("label_id", " X ")]] ∧ r = cleanRow r₀)
      ∧ (∀ r ∈ out, ∀ p ∈ r, p.1 ∈ RECOGNIZED_CSV_COLUMNS
          ∧ ∃ v, v ≠ "" ∧ p.2 = trimJs v)
      ∧ (∀ r ∈ out, ∃ v, rowGet r REQUIRED_CSV_COLUMN = some v ∧ v ≠ "") :=
  csv_rows_cleaned [[("label_id", " X ")]] (by decide) (by decide) (by decide)

/-- Claim C9, counterexample to the claim as stated: a whitespace-only
cell in a recognized column passes the pre-trim emptiness check
(`row[col] !== ""`) and is stored as the empty string after trimming, so
the accepted output contains a retained value that is empty — contradicting
"every retained value is trimmed and non-empty". -/
theorem csv_empty_value_counterexample :
    handleCsvRows [] [[("label_id", "A"), ("brand_name", " ")]] =
      .accepted [[("label_id", "A"), ("brand_name", "")]]
    ∧ ¬ (∀ r ∈ [[("label_id", "A"), ("brand_name", "")]],
          ∀ p ∈ r, (p : String × String).2 ≠ "") := by
  constructor
  · decide
  · decide

theorem applyEvent_status_cases (s : CtrlState) (e : Ev) :
    (applyEvent s e).status = s.status ∨
      (s.status = .uploading ∧ (applyEvent s e).status = .streaming) := by
  cases e with
  | meta t => exact Or.inl rfl
  | result i payload =>
    by_cases hs : s.status = .uploading
    · exact Or.inr ⟨hs, by simp [applyEvent, hs]⟩
    · exact Or.inl (by simp [applyEvent, hs])
  | errorData i payload =>
    by_cases hi : (0 : Int) ≤ i
    · exact Or.inl (by simp [applyEvent, hi])
    · exact Or.inl (by simp [applyEvent, hi])
  | errorNoData => exact Or.inl rfl
  | done p => exact Or.inl rfl
  | connError closed =>
    by_cases hc : closed
    · exact Or.inl (by simp [applyEvent, hc])
    · exact Or.inl (by simp [applyEvent, hc])

theorem applyEvent_complete {s : CtrlState} (e : Ev) (h : s.status = .complete) :
    (applyEvent s e).status = .complete := by
  rcases applyEvent_status_cases s e with hc | ⟨hu, _⟩
  · rw [hc, h]
  · rw [hu] at h
    exact absurd h (by simp)

theorem applyEvent_complete_of {s : CtrlState} (e : Ev)
    (h : (applyEvent s e).status = .complete) : s.status = .complete := by
  rcases applyEvent_status_cases s e with hc | ⟨_, hs⟩
  · rw [← hc, h]
  · rw [hs] at h
    exact absurd h (by simp)

theorem applyEvent_total (s : CtrlState) (e : Ev) (h1 : 1 ≤ s.total)
    (he : ∀ t, e = .meta t → 1 ≤ t) : 1 ≤ (applyEvent s e).total := by
  cases e with
  | meta t => exact he t rfl
  | result i payload => exact h1
  | errorData i payload =>
    by_cases hi : (0 : Int) ≤ i
    · simpa [applyEvent, hi] using h1
    · simpa [applyEvent, hi] using h1
  | errorNoData => exact h1
  | done p => exact h1
  | connError closed =>
    by_cases hc : closed
    · simpa [applyEvent, hc] using h1
    · simpa [applyEvent, hc] using h1

theorem applyEvent_startTime (s : CtrlState) (e : Ev) :
    (applyEvent s e).startTime = s.startTime := by
  cases e with
  | meta t => rfl
  | result i payload => rfl
  | errorData i payload =>
    by_cases hi : (0 : Int) ≤ i
    · simp [applyEvent, hi]
    · simp [applyEvent, hi]
  | errorNoData => rfl
  | done p => rfl
  | connError closed =>
    by_cases hc : closed
    · simp [applyEvent, hc]
    · simp [applyEvent, hc]

theorem checkComplete_neg (now : Nat) {s : CtrlState} (h : ¬ completeCond s) :
    checkComplete now s = s := by
  unfold checkComplete
  rw [if_neg h]

theorem checkComplete_pos (now : Nat) {s : CtrlState} (h : completeCond s) :
    (checkComplete now s).status = .complete
    ∧ (checkComplete now s).esOpen = false
    ∧ (checkComplete now s).results = s.results
    ∧ (checkComplete now s).total = s.total
    ∧ (∀ t0, s.startTime = some t0 →
        (checkComplete now s).elapsedSeconds = some (jsRound (now - t0) 1000))
    ∧ (∀ p l, s.donePayload = some p → p.unmatchedCsvRows = some l →
        (checkComplete now s).unmatchedCsvRows = l) := by
  unfold checkComplete
  rw [if_pos h]
  refine ⟨rfl, rfl, rfl, rfl, ?_, ?_⟩
  · intro t0 ht
    simp [ht]
  · intro p l hp hl
    simp [hp, hl]

theorem checkComplete_total (now : Nat) (s : CtrlState) :
    (checkComplete now s).total = s.total := by
  unfold checkComplete
  split
  · rfl
  · rfl

theorem checkComplete_startTime (now : Nat) (s : CtrlState) :
    (checkComplete now s).startTime = s.startTime := by
  unfold checkComplete
  split
  · rfl
  · rfl

theorem checkComplete_status_self (now : Nat) {s : CtrlState}
    (h : (checkComplete now s).status ≠ .complete) : checkComplete now s = s := by
  by_cases hc : completeCond s
  · exact absurd (checkComplete_pos now hc).1 h
  · exact checkComplete_neg now hc

theorem step_complete (now : Nat) {s : CtrlState} (e : Ev)
    (h : s.status = .complete) : (step now s e).status = .complete := by
  unfold step
  by_cases ho : s.esOpen = true
  · rw [if_pos ho]
    have happ := applyEvent_complete e h
    have hnc : ¬ completeCond (applyEvent s e) := by
      intro hc
      rcases hc.2.2 with hs | hs
      · rw [happ] at hs
        exact absurd hs (by simp)
      · rw [happ] at hs
        exact absurd hs (by simp)
    rw [checkComplete_neg now hnc]
    exact happ
  · rw [if_neg ho]
    exact h

theorem ctrlRun_complete (now : Nat) {s : CtrlState} (evs : List Ev)
    (h : s.status = .complete) : (ctrlRun now s evs).status = .complete := by
  induction evs generalizing s with
  | nil => exact h
  | cons e es ih => exact ih (step_complete now e h)

theorem step_startTime (now : Nat) (s : CtrlState) (e : Ev) :
    (step now s e).startTime = s.startTime := by
  unfold step
  by_cases ho : s.esOpen = true
  · rw [if_pos ho, checkComplete_startTime, applyEvent_startTime]
  · rw [if_neg ho]

theorem ctrlRun_startTime (now : Nat) (s : CtrlState) (evs : List Ev) :
    (ctrlRun now s evs).startTime = s.startTime := by
  induction evs generalizing s with
  | nil => rfl
  | cons e es ih => rw [ctrlRun, List.foldl_cons, ← ctrlRun, ih, step_startTime]

theorem step_total (now : Nat) (s : CtrlState) (e : Ev) (h1 : 1 ≤ s.total)
    (he : ∀ t, e = .meta t → 1 ≤ t) : 1 ≤ (step now s e).total := by
  unfold step
  by_cases ho : s.esOpen = true
  · rw [if_pos ho, checkComplete_total]
    exact applyEvent_total s e h1 he
  · rw [if_neg ho]
    exact h1

theorem ctrlRun_total (now : Nat) {s : CtrlState} (evs : List Ev)
    (h1 : 1 ≤ s.total) (hm : ∀ t, Ev.meta t ∈ evs → 1 ≤ t) :
    1 ≤ (ctrlRun now s evs).total := by
  induction evs generalizing s with
  | nil => exact h1
  | cons e es ih =>
    rw [ctrlRun, List.foldl_cons, ← ctrlRun]
    exact ih (step_total now s e h1 (fun t ht => hm t (by rw [ht]; exact List.mem_cons_self _ _)))
      (fun t ht => hm t (List.mem_cons_of_mem _ ht))

theorem ctrlRun_append (now : Nat) (s : CtrlState) (t u : List Ev) :
    ctrlRun now s (t ++ u) = ctrlRun now (ctrlRun now s t) u := by
  unfold ctrlRun
  exact List.foldl_append _ _ _ _

theorem stateAt_zero (now n t0 : Nat) (dups : List String) (evs : List Ev) :
    stateAt now n t0 dups evs 0 = initCtrl n t0 dups := rfl

theorem stateAt_succ (now n t0 : Nat) (dups : List String) (evs : List Ev)
    (i : Nat) (h : i < evs.length) :
    stateAt now n t0 dups evs (i + 1) =
      step now (stateAt now n t0 dups evs i) (evAt evs i) := by
  unfold stateAt evAt
  rw [List.take_succ, List.getElem?_eq_getElem h, List.getD_eq_getElem?_getD,
    List.getElem?_eq_getElem h, ctrlRun_append]
  rfl

theorem stateAt_of_ge (now n t0 : Nat) (dups : List String) (evs : List Ev)
    (i : Nat) (h : evs.length ≤ i) :
    stateAt now n t0 dups evs i = stateAt now n t0 dups evs evs.length := by
  unfold stateAt
  rw [List.take_of_length_le h, List.take_of_length_le (le_refl _)]

theorem stateAt_complete_mono (now n t0 : Nat) (dups : List String)
    (evs : List Ev) (i j : Nat) (hij : i ≤ j)
    (h : (stateAt now n t0 dups evs i).status = .complete) :
    (stateAt now n t0 dups evs j).status = .complete := by
  have hsplit : evs.take j = evs.take i ++ (evs.take j).drop i := by
    conv_lhs => rw [← List.take_append_drop i (evs.take j)]
    rw [List.take_take, min_eq_left hij]
  unfold stateAt
  rw [hsplit, ctrlRun_append]
  exact ctrlRun_complete now _ h

theorem storeSet_size (m : ResultStore) (k : Int) (v : ResultRecord) :
    storeSize (storeSet m k v) = storeSize m ∨
      storeSize (storeSet m k v) = storeSize m + 1 := by
  unfold storeSet storeSize
  split
  · left
    exact List.length_map _ _
  · right
    simp

theorem storeSet_size_congr (m : ResultStore) (k : Int) (v w : ResultRecord) :
    storeSize (storeSet m k v) = storeSize (storeSet m k w) := by
  unfold storeSet storeSize
  by_cases hc : m.any (fun p => p.1 == k) = true
  · rw [if_pos hc, if_pos hc]
    rw [List.length_map, List.length_map]
  · rw [if_neg hc, if_neg hc]
    simp

theorem C4_step (now : Nat) (s : CtrlState) (e : Ev) (hInv : C4Inv s)
    (hm : ∀ t, e = .meta t → 1 ≤ t ∧ storeSize s.results ≤ t) :
    C4Inv (step now s e) := by
  unfold step
  by_cases ho : s.esOpen = true
  case neg =>
    rw [if_neg ho]
    exact hInv
  case pos =>
    rw [if_pos ho]
    obtain ⟨hle, hopen⟩ := hInv
    obtain ⟨hlt, hst⟩ := hopen ho
    have hkey : storeSize (applyEvent s e).results ≤ (applyEvent s e).total
        ∧ ((applyEvent s e).esOpen = true →
            ((applyEvent s e).status = .uploading ∨ (applyEvent s e).status = .streaming))
        ∧ ((applyEvent s e).esOpen = true → ¬ completeCond (applyEvent s e) →
            storeSize (applyEvent s e).results < (applyEvent s e).total) := by
      cases e with
      | meta t =>
        obtain ⟨ht1, ht2⟩ := hm t rfl
        refine ⟨?_, fun _ => hst, fun _ hc => ?_⟩
        · show storeSize s.results ≤ t
          omega
        · show storeSize s.results < t
          by_contra hge
          push_neg at hge
          refine hc ⟨?_, ?_, ?_⟩
          · show 0 < t
            omega
          · show t ≤ storeSize s.results
            omega
          · show s.status = .streaming ∨ s.status = .uploading
            exact Or.symm hst
      | result i payload =>
        rcases storeSet_size s.results i (.success payload) with hsz | hsz <;>
        · have hstat : (applyEvent s (.result i payload)).status = .streaming ∨
              (applyEvent s (.result i payload)).status = s.status := by
            by_cases hu : s.status = .uploading
            · left
              simp [applyEvent, hu]
            · right
              simp [applyEvent, hu]
          refine ⟨?_, fun _ => ?_, fun _ hc => ?_⟩
          · show storeSize (storeSet s.results i (.success payload)) ≤ s.total
            omega
          · rcases hstat with h1 | h1
            · rw [h1]
              right
              rfl
            · rw [h1]
              exact hst
          · show storeSize (storeSet s.results i (.success payload)) < s.total
            by_contra hge
            push_neg at hge
            refine hc ⟨?_, ?_, ?_⟩
            · show 0 < s.total
              omega
            · show s.total ≤ storeSize (storeSet s.results i (.success payload))
              omega
            · rcases hstat with h1 | h1
              · rw [h1]
                left
                rfl
              · rw [h1]
                exact Or.symm hst
      | errorData i payload =>
        by_cases hi : (0 : Int) ≤ i
        · have hres : applyEvent s (.errorData i payload) =
              { s with results := storeSet s.results i (.failure payload) } := by
            simp [applyEvent, hi]
          rcases storeSet_size s.results i (.failure payload) with hsz | hsz <;>
          · rw [hres]
            refine ⟨?_, fun _ => hst, fun _ hc => ?_⟩
            · show storeSize (storeSet s.results i (.failure payload)) ≤ s.total
              omega
            · show storeSize (storeSet s.results i (.failure payload)) < s.total
              by_contra hge
              push_neg at hge
              refine hc ⟨?_, ?_, Or.symm hst⟩
              · show 0 < s.total
                omega
              · show s.total ≤ storeSize (storeSet s.results i (.failure payload))
                omega
        · have hres : applyEvent s (.errorData i payload) = s := by
            simp [applyEvent, hi]
          rw [hres]
          exact ⟨hle, fun _ => hst, fun _ _ => hlt⟩
      | errorNoData =>
        exact ⟨hle, fun _ => hst, fun _ _ => hlt⟩
      | done p =>
        refine ⟨hle, fun hfalse => ?_, fun hfalse _ => ?_⟩
        · simp [applyEvent] at hfalse
        · simp [applyEvent] at hfalse
      | connError closed =>
        by_cases hcl : closed
        · have hres : applyEvent s (.connError closed) = { s with esOpen := false } := by
            simp [applyEvent, hcl]
          rw [hres]
          refine ⟨hle, fun hfalse => ?_, fun hfalse _ => ?_⟩
          · simp at hfalse
          · simp at hfalse
        · have hres : applyEvent s (.connError closed) = s := by
            simp [applyEvent, hcl]
          rw [hres]
          exact ⟨hle, fun _ => hst, fun _ _ => hlt⟩
    obtain ⟨hA1, hA2, hA3⟩ := hkey
    by_cases hc : completeCond (applyEvent s e)
    · obtain ⟨_, hes, hres, htot, _, _⟩ := checkComplete_pos now hc
      constructor
      · rw [hres, htot]
        exact hA1
      · intro hfalse
        rw [hes] at hfalse
        cases hfalse
    · rw [checkComplete_neg now hc]
      refine ⟨hA1, fun he => ⟨hA3 he hc, hA2 he⟩⟩

theorem C4Inv_stateAt (now n t0 : Nat) (dups : List String) (evs : List Ev)
    (hn : 1 ≤ n)
    (hmeta : ∀ i t, i < evs.length → evAt evs i = .meta t →
      1 ≤ t ∧ storeSize (stateAt now n t0 dups evs i).results ≤ t) :
    ∀ i, C4Inv (stateAt now n t0 dups evs i) := by
  intro i
  induction i with
  | zero =>
    rw [stateAt_zero]
    exact ⟨by simp [initCtrl, storeSize], fun _ => ⟨by simpa [initCtrl, storeSize] using hn,
      Or.inl rfl⟩⟩
  | succ i ih =>
    by_cases h : i < evs.length
    · rw [stateAt_succ now n t0 dups evs i h]
      exact C4_step now _ _ ih (fun t ht => hmeta i t h ht)
    · rw [stateAt_of_ge now n t0 dups evs (i + 1) (by omega),
        ← stateAt_of_ge now n t0 dups evs i (by omega)]
      exact ih

/-- Claim C4 (amended): starting a job on a nonempty file list, and
assuming every `meta` event delivered carries a positive corrected total
at least as large as the number of results already stored at that moment,
the result store's size never exceeds the current `total_files` in any
reachable state — and the externally observed progress value is defined
as the store's size (there is no separately maintained counter). -/
theorem store_size_bounded (now n t0 : Nat) (dups : List String)
    (evs : List Ev) (hn : 1 ≤ n)
    (hmeta : ∀ i t, i < evs.length → evAt evs i = .meta t →
      1 ≤ t ∧ storeSize (stateAt now n t0 dups evs i).results ≤ t) :
    (∀ i, storeSize (stateAt now n t0 dups evs i).results ≤
      (stateAt now n t0 dups evs i).total)
    ∧ (∀ s : CtrlState, progress s = storeSize s.results) := by
  refine ⟨fun i => (C4Inv_stateAt now n t0 dups evs hn hmeta i).1, fun s => rfl⟩

theorem store_size_bounded_witness :
    storeSize (stateAt 5 1 0 [] [Ev.result 0 "a"] 1).results ≤
      (stateAt 5 1 0 [] [Ev.result 0 "a"] 1).total := by
  refine (store_size_bounded 5 1 0 [] [Ev.result 0 "a"] (by decide) ?_).1 1
  intro i t hi ht
  have hz : i = 0 := by
    simp only [List.length_singleton] at hi
    omega
  subst hz
  simp [evAt] at ht

/-- Claim C4, counterexample to the claim as stated: the handlers accept a
`meta` event that lowers `total_files` below the number of results already
stored (the spec itself assumes no ordering of stream events), after which
the store's size exceeds the current `total_files` in a reachable state:
with 3 files, deliver results for indices 0 and 1 and then `meta` with
`total_files = 1` — the resulting state has store size 2 and total 1. -/
theorem store_size_bounded_counterexample :
    ¬ (storeSize (stateAt 0 3 0 [] [Ev.result 0 "a", Ev.result 1 "b", Ev.meta 1] 3).results
        ≤ (stateAt 0 3 0 [] [Ev.result 0 "a", Ev.result 1 "b", Ev.meta 1] 3).total) := by
  decide

theorem evAt_mem (evs : List Ev) (i : Nat) (hi : i < evs.length) :
    evAt evs i ∈ evs := by
  unfold evAt
  rw [List.getD_eq_getElem?_getD, List.getElem?_eq_getElem hi]
  exact List.getElem_mem hi

/-- Claim C1: the completion transition fires exactly at the steps where
the delivered event first makes the store reach `total_files` while the
status is `uploading` or `streaming` (and the subscription is still open —
a closed `EventSource` delivers nothing); it fires at most once per run;
and at the firing step the elapsed time is derived from the recorded start
timestamp, any pending `done` diagnostics are applied, and the
subscription ends closed. -/
theorem completion_fires_once_at_threshold (now n t0 : Nat)
    (dups : List String) (evs : List Ev) (hn : 1 ≤ n)
    (hmeta : ∀ t, Ev.meta t ∈ evs → 1 ≤ t) :
    (∀ i, i < evs.length →
      (firesAt now n t0 dups evs i ↔
        ((stateAt now n t0 dups evs i).esOpen = true ∧
          claimCond (applyEvent (stateAt now n t0 dups evs i) (evAt evs i)))))
    ∧ (∀ i j, i < j → firesAt now n t0 dups evs i →
        ¬ firesAt now n t0 dups evs j)
    ∧ (∀ i, i < evs.length → firesAt now n t0 dups evs i →
        (stateAt now n t0 dups evs (i + 1)).elapsedSeconds =
          some (jsRound (now - t0) 1000)
        ∧ (stateAt now n t0 dups evs (i + 1)).esOpen = false
        ∧ (∀ p l,
            (applyEvent (stateAt now n t0 dups evs i) (evAt evs i)).donePayload = some p →
            p.unmatchedCsvRows = some l →
            (stateAt now n t0 dups evs (i + 1)).unmatchedCsvRows = l)) := by
  have htot : ∀ i, 1 ≤ (stateAt now n t0 dups evs i).total := by
    intro i
    unfold stateAt
    exact ctrlRun_total now _ hn (fun t ht => hmeta t (List.take_subset _ _ ht))
  have hstart : ∀ i, (stateAt now n t0 dups evs i).startTime = some t0 := by
    intro i
    unfold stateAt
    rw [ctrlRun_startTime]
    rfl
  have hatot : ∀ i, i < evs.length →
      1 ≤ (applyEvent (stateAt now n t0 dups evs i) (evAt evs i)).total := by
    intro i hi
    exact applyEvent_total _ _ (htot i)
      (fun t ht => hmeta t (ht ▸ evAt_mem evs i hi))
  have hcond : ∀ i, i < evs.length →
      (completeCond (applyEvent (stateAt now n t0 dups evs i) (evAt evs i)) ↔
        claimCond (applyEvent (stateAt now n t0 dups evs i) (evAt evs i))) := by
    intro i hi
    constructor
    · intro hc
      exact ⟨hc.2.1, Or.symm hc.2.2⟩
    · intro hc
      exact ⟨by have := hatot i hi; omega, hc.1, Or.symm hc.2⟩
  have key : ∀ i, i < evs.length →
      (firesAt now n t0 dups evs i ↔
        ((stateAt now n t0 dups evs i).esOpen = true ∧
          completeCond (applyEvent (stateAt now n t0 dups evs i) (evAt evs i)))) := by
    intro i hi
    unfold firesAt
    rw [stateAt_succ now n t0 dups evs i hi]
    constructor
    · rintro ⟨h1, h2⟩
      by_cases ho : (stateAt now n t0 dups evs i).esOpen = true
      · refine ⟨ho, ?_⟩
        unfold step at h1
        rw [if_pos ho] at h1
        by_cases hc : completeCond (applyEvent (stateAt now n t0 dups evs i) (evAt evs i))
        · exact hc
        · rw [checkComplete_neg now hc] at h1
          exact absurd (applyEvent_complete_of _ h1) h2
      · unfold step at h1
        rw [if_neg ho] at h1
        exact absurd h1 h2
    · rintro ⟨ho, hcc⟩
      constructor
      · unfold step
        rw [if_pos ho]
        exact (checkComplete_pos now hcc).1
      · intro hcontra
        rcases applyEvent_status_cases (stateAt now n t0 dups evs i) (evAt evs i)
          with he | ⟨hu, _⟩
        · rcases hcc.2.2 with h | h
          · rw [he, hcontra] at h
            simp at h
          · rw [he, hcontra] at h
            simp at h
        · rw [hu] at hcontra
          simp at hcontra
  refine ⟨?_, ?_, ?_⟩
  · intro i hi
    rw [key i hi]
    constructor
    · rintro ⟨ho, hc⟩
      exact ⟨ho, (hcond i hi).mp hc⟩
    · rintro ⟨ho, hc⟩
      exact ⟨ho, (hcond i hi).mpr hc⟩
  · intro i j hij hf
    intro hfj
    have hc1 : (stateAt now n t0 dups evs (i + 1)).status = .complete := hf.1
    exact hfj.2 (stateAt_complete_mono now n t0 dups evs (i + 1) j (by omega) hc1)
  · intro i hi hf
    obtain ⟨ho, hcc⟩ := (key i hi).mp hf
    have hpos := checkComplete_pos now hcc
    have hsucc := stateAt_succ now n t0 dups evs i hi
    have hstep : stateAt now n t0 dups evs (i + 1) =
        checkComplete now (applyEvent (stateAt now n t0 dups evs i) (evAt evs i)) := by
      rw [hsucc]
      unfold step
      rw [if_pos ho]
    refine ⟨?_, ?_, ?_⟩
    · rw [hstep]
      exact hpos.2.2.2.2.1 t0 (by rw [applyEvent_startTime, hstart i])
    · rw [hstep]
      exact hpos.2.1
    · intro p l hp hl
      rw [hstep]
      exact hpos.2.2.2.2.2 p l hp hl

theorem completion_fires_once_at_threshold_witness :
    firesAt 1000 1 0 [] [Ev.result 0 "p"] 0 := by
  have h := (completion_fires_once_at_threshold 1000 1 0 [] [Ev.result 0 "p"]
    (by decide) (by intro t ht; simp at ht)).1 0 (by decide)
  exact h.mpr (by decide)

/-- Claim C7: a data-carrying `error` stream event for a (nonnegative)
client index stores a failure record through exactly the same `Map.set`
operation as a success record, without touching the status, yielding the
same store size — so it counts toward progress identically and the
completion condition is uniform in the per-item outcome — while an
`error` dispatch with no data and the low-level `es.onerror` connection
callback never change the status. -/
theorem error_events_uniform (s : CtrlState) (i : Int) (hi : 0 ≤ i)
    (msg payload : String) (b : Bool) :
    (applyEvent s (.errorData i msg)).results = storeSet s.results i (.failure msg)
    ∧ (applyEvent s (.errorData i msg)).status = s.status
    ∧ storeSize (applyEvent s (.errorData i msg)).results
        = storeSize (applyEvent s (.result i payload)).results
    ∧ (completeCond (applyEvent s (.errorData i msg)) ↔
        completeCond (applyEvent s (.result i payload)))
    ∧ applyEvent s .errorNoData = s
    ∧ (applyEvent s (.connError b)).status = s.status := by
  have hres : applyEvent s (.errorData i msg) =
      { s with results := storeSet s.results i (.failure msg) } := by
    simp [applyEvent, hi]
  refine ⟨by rw [hres], by rw [hres], ?_, ?_, rfl, ?_⟩
  · rw [hres]
    exact storeSet_size_congr s.results i (.failure msg) (.success payload)
  · rw [hres]
    unfold completeCond
    dsimp only
    have hsz := storeSet_size_congr s.results i (.failure msg) (.success payload)
    have hstot : (applyEvent s (.result i payload)).total = s.total := rfl
    have hsres : (applyEvent s (.result i payload)).results =
        storeSet s.results i (.success payload) := rfl
    rw [hstot, hsres]
    constructor
    · rintro ⟨h1, h2, h3⟩
      refine ⟨h1, by omega, ?_⟩
      by_cases hu : s.status = .uploading
      · left
        simp [applyEvent, hu]
      · have : (applyEvent s (.result i payload)).status = s.status := by
          simp [applyEvent, hu]
        rw [this]
        exact h3
    · rintro ⟨h1, h2, h3⟩
      refine ⟨h1, by omega, ?_⟩
      by_cases hu : s.status = .uploading
      · right
        exact hu
      · have heq : (applyEvent s (.result i payload)).status = s.status := by
          simp [applyEvent, hu]
        rw [heq] at h3
        exact h3
  · by_cases hc : b
    · simp [applyEvent, hc]
    · simp [applyEvent, hc]

theorem error_events_uniform_witness :
    (applyEvent (initCtrl 2 0 []) (.errorData 0 "boom")).results =
      storeSet (initCtrl 2 0 []).results 0 (.failure "boom")
    ∧ (applyEvent (initCtrl 2 0 []) (.errorData 0 "boom")).status =
        (initCtrl 2 0 []).status
    ∧ storeSize (applyEvent (initCtrl 2 0 []) (.errorData 0 "boom")).results
        = storeSize (applyEvent (initCtrl 2 0 []) (.result 0 "ok")).results := by
  have h := error_events_uniform (initCtrl 2 0 []) 0 (by decide) "boom" "ok" true
  exact ⟨h.1, h.2.1, h.2.2.1⟩

/-- Claim C2 (the code lacks the guard the spec requires): `reset()`
returns the controller to `idle`, but the `catch` continuation of a
superseded `analyze()` call — which still awaits that job's upload
pipeline — is not guarded by any generation token, so when that pipeline
later rejects it mutates the post-reset state: status becomes `error`
and the failure message is recorded.  A late callback is therefore not a
no-op with respect to post-reset state. -/
theorem late_catch_mutates_after_reset (s : CtrlState) (msg : String) :
    (resetCtrl s).status = .idle
    ∧ (catchHandler (resetCtrl s) msg).status = .error
    ∧ (catchHandler (resetCtrl s) msg).error = some msg
    ∧ catchHandler (resetCtrl s) msg ≠ resetCtrl s := by
  refine ⟨rfl, rfl, rfl, ?_⟩
  intro h
  have := congrArg CtrlState.status h
  simp [catchHandler, resetCtrl] at this

theorem countP_append_single {α : Type} (p : α → Bool) (t : List α) (a : α) :
    List.countP p (t ++ [a]) = List.countP p t + (if p a then 1 else 0) := by
  rw [List.countP_append]
  simp [List.countP_cons]

theorem length_filter_ne (l : List Nat) (a : Nat) :
    (l.filter (fun j => j != a)).length + l.count a = l.length := by
  induction l with
  | nil => simp
  | cons b l ih =>
    by_cases hb : b = a
    · subst hb
      simp only [List.count_cons, List.filter_cons, bne_self_eq_false,
        Bool.false_eq_true, if_neg, if_false, List.length_cons, beq_self_eq_true, if_pos]
      omega
    · have hbne : (b != a) = true := by simp [hb]
      have hbeq : (b == a) = false := by simp [hb]
      simp only [List.count_cons, List.filter_cons, hbne, if_pos, List.length_cons, hbeq,
        Bool.false_eq_true, if_neg, if_false]
      omega

theorem count_filter_ne (l : List Nat) (a b : Nat) :
    (l.filter (fun j => j != a)).count b = if b = a then 0 else l.count b := by
  induction l with
  | nil => simp
  | cons c l ih =>
    by_cases hc : c = a
    · subst hc
      simp only [List.filter_cons, bne_self_eq_false, Bool.false_eq_true, if_false]
      rw [ih]
      by_cases hba : b = c
      · simp [hba]
      · have hcb : (c == b) = false := by
          simp
          intro h
          exact hba h.symm
        simp only [hba, if_neg, if_false, List.count_cons, hcb, Bool.false_eq_true]
        simp
    · have hkeep : (c != a) = true := by simp [hc]
      simp only [List.filter_cons, hkeep, if_pos]
      rw [List.count_cons, List.count_cons, ih]
      by_cases hba : b = a
      · subst hba
        have hcb : (c == b) = false := by
          simp
          exact hc
        simp [hcb]
      · simp [hba]

theorem getD_mem_of_lt (l : List Nat) (n : Nat) (h : n < l.length) :
    l.getD n 0 ∈ l := by
  rw [List.getD_eq_getElem?_getD, List.getElem?_eq_getElem h]
  exact List.getElem_mem h

theorem startsOf_append (t : List SAct) (a : SAct) (i : Nat) :
    startsOf (t ++ [a]) i = startsOf t i +
      (match a with | .start j => if j = i then 1 else 0 | _ => 0) := by
  unfold startsOf
  rw [countP_append_single]
  cases a with
  | start j =>
    by_cases hj : j = i
    · simp [hj]
    · simp [hj]
  | settle j b => simp
  | callComplete => simp

theorem settlesOf_append (t : List SAct) (a : SAct) (i : Nat) :
    settlesOf (t ++ [a]) i = settlesOf t i +
      (match a with | .settle j _ => if j = i then 1 else 0 | _ => 0) := by
  unfold settlesOf
  rw [countP_append_single]
  cases a with
  | start j => simp
  | settle j b =>
    by_cases hj : j = i
    · simp [hj]
    · simp [hj]
  | callComplete => simp

theorem startsTotal_append (t : List SAct) (a : SAct) :
    startsTotal (t ++ [a]) = startsTotal t +
      (match a with | .start _ => 1 | _ => 0) := by
  unfold startsTotal
  rw [countP_append_single]
  cases a <;> simp

theorem settlesTotal_append (t : List SAct) (a : SAct) :
    settlesTotal (t ++ [a]) = settlesTotal t +
      (match a with | .settle _ _ => 1 | _ => 0) := by
  unfold settlesTotal
  rw [countP_append_single]
  cases a <;> simp

theorem completions_append (t : List SAct) (a : SAct) :
    completions (t ++ [a]) = completions t +
      (match a with | .callComplete => 1 | _ => 0) := by
  unfold completions
  rw [countP_append_single]
  cases a <;> simp

theorem take_append_single {α : Type} (t : List α) (a : α) (k : Nat) :
    (t ++ [a]).take k = t.take k ∨ (t ++ [a]).take k = t ++ [a] := by
  rcases le_or_lt k t.length with h | h
  · left
    exact List.take_append_of_le_length h
  · right
    apply List.take_of_length_le
    simp
    omega

theorem SInv_push (nc : Nat) (s : SchedState) (h : SInv nc s)
    (hg : s.active.length < MAX_CONCURRENT ∧ s.nextChunk < nc) :
    SInv nc ⟨s.nextChunk + 1, s.active ++ [s.nextChunk],
      s.trace ++ [SAct.start s.nextChunk]⟩ := by
  obtain ⟨hnle, hact, hsi, hbi, hnc, hstot, hsettot, hbnd⟩ := h
  have hs0 : startsOf s.trace s.nextChunk = 0 := by
    rw [hsi s.nextChunk]
    simp
  have hcnt0 : s.active.count s.nextChunk = 0 ∧
      settlesOf s.trace s.nextChunk = 0 := by
    have := hbi s.nextChunk
    rw [hs0] at this
    omega
  refine ⟨by show s.nextChunk + 1 ≤ nc; omega,
    by show (s.active ++ [s.nextChunk]).length ≤ MAX_CONCURRENT; simp; omega,
    ?_, ?_, ?_, ?_, ?_, ?_⟩
  · intro i
    show startsOf (s.trace ++ [SAct.start s.nextChunk]) i =
      if i < s.nextChunk + 1 then 1 else 0
    rw [startsOf_append]
    dsimp only
    rw [hsi i]
    by_cases hi : i = s.nextChunk
    · subst hi
      simp
    · rw [if_neg (show ¬ (s.nextChunk = i) from fun hh => hi hh.symm)]
      split_ifs <;> omega
  · intro i
    show startsOf (s.trace ++ [SAct.start s.nextChunk]) i =
      settlesOf (s.trace ++ [SAct.start s.nextChunk]) i +
        (s.active ++ [s.nextChunk]).count i
    rw [startsOf_append, settlesOf_append, List.count_append]
    dsimp only
    have hb := hbi i
    by_cases hi : i = s.nextChunk
    · subst hi
      rw [if_pos rfl]
      have hone : ([s.nextChunk] : List Nat).count s.nextChunk = 1 := by simp
      rw [hone]
      omega
    · rw [if_neg (show ¬ (s.nextChunk = i) from fun hh => hi hh.symm)]
      have hzero : ([s.nextChunk] : List Nat).count i = 0 := by
        have hne : (s.nextChunk == i) = false := by
          simp
          exact fun hh => hi hh.symm
        simp [List.count_cons, hne]
      rw [hzero]
      omega
  · show completions (s.trace ++ [SAct.start s.nextChunk]) = 0
    rw [completions_append]
    show completions s.trace + 0 = 0
    omega
  · show startsTotal (s.trace ++ [SAct.start s.nextChunk]) = s.nextChunk + 1
    rw [startsTotal_append]
    show startsTotal s.trace + 1 = s.nextChunk + 1
    omega
  · show settlesTotal (s.trace ++ [SAct.start s.nextChunk]) +
      (s.active ++ [s.nextChunk]).length = s.nextChunk + 1
    rw [settlesTotal_append]
    show settlesTotal s.trace + 0 + (s.active ++ [s.nextChunk]).length = s.nextChunk + 1
    simp only [List.length_append, List.length_cons, List.length_nil]
    omega
  · intro k
    show startsTotal ((s.trace ++ [SAct.start s.nextChunk]).take k) ≤
      settlesTotal ((s.trace ++ [SAct.start s.nextChunk]).take k) + MAX_CONCURRENT
    rcases take_append_single s.trace (SAct.start s.nextChunk) k with heq | heq
    · rw [heq]
      exact hbnd k
    · rw [heq, startsTotal_append, settlesTotal_append]
      show startsTotal s.trace + 1 ≤ settlesTotal s.trace + 0 + MAX_CONCURRENT
      have h1 := hbnd s.trace.length
      rw [List.take_length] at h1
      omega

theorem fill_measure (nc : Nat) (s : SchedState) :
    s.nextChunk ≤ nc →
    (nc - (fill nc s).nextChunk) + (fill nc s).active.length
      = (nc - s.nextChunk) + s.active.length := by
  induction s using fill.induct nc with
  | case1 s hg ih =>
    intro hle
    rw [fill, dif_pos hg]
    have h2 := ih (by show s.nextChunk + 1 ≤ nc; omega)
    dsimp only at h2
    simp only [List.length_append, List.length_cons, List.length_nil] at h2
    omega
  | case2 s hg =>
    intro hle
    rw [fill, dif_neg hg]

theorem fill_active_ne (nc : Nat) (s : SchedState) :
    (s.nextChunk < nc ∨ s.active ≠ []) → (fill nc s).active ≠ [] := by
  induction s using fill.induct nc with
  | case1 s hg ih =>
    intro _
    rw [fill, dif_pos hg]
    exact ih (Or.inr (by simp))
  | case2 s hg =>
    intro hor
    rw [fill, dif_neg hg]
    rcases hor with h | h
    · intro hnil
      exact hg ⟨by simp [hnil, MAX_CONCURRENT], h⟩
    · exact h

theorem fill_inv (nc : Nat) (s : SchedState) :
    SInv nc s → SInv nc (fill nc s) := by
  induction s using fill.induct nc with
  | case1 s hg ih =>
    intro h
    rw [fill, dif_pos hg]
    exact ih (SInv_push nc s h hg)
  | case2 s hg =>
    intro h
    rw [fill, dif_neg hg]
    exact h

theorem raceStep_measure (nc : Nat) (s : SchedState) (c : Nat × Bool)
    (hle : s.nextChunk ≤ nc) (hg : s.nextChunk < nc ∨ s.active ≠ []) :
    (nc - (raceStep nc s c).nextChunk) + (raceStep nc s c).active.length <
      (nc - s.nextChunk) + s.active.length := by
  have hm := fill_measure nc s hle
  have hne := fill_active_ne nc s hg
  simp only [raceStep]
  set s1 := fill nc s with hs1
  have hz : ¬ s1.active.length = 0 := by
    intro h0
    exact hne (List.length_eq_zero.mp h0)
  rw [if_neg hz]
  have hpos : c.1 % s1.active.length < s1.active.length :=
    Nat.mod_lt _ (by omega)
  have hmem := getD_mem_of_lt s1.active _ hpos
  have hcnt : 1 ≤ s1.active.count (s1.active.getD (c.1 % s1.active.length) 0) :=
    List.count_pos_iff.mpr hmem
  have hfl := length_filter_ne s1.active (s1.active.getD (c.1 % s1.active.length) 0)
  show (nc - s1.nextChunk) +
    (s1.active.filter (fun j => j != s1.active.getD (c.1 % s1.active.length) 0)).length <
      (nc - s.nextChunk) + s.active.length
  omega

theorem raceStep_inv (nc : Nat) (s : SchedState) (c : Nat × Bool)
    (h : SInv nc s) : SInv nc (raceStep nc s c) := by
  have h1 := fill_inv nc s h
  simp only [raceStep]
  set s1 := fill nc s with hs1
  by_cases hz : s1.active.length = 0
  · rw [if_pos hz]
    exact h1
  · rw [if_neg hz]
    have hpos : c.1 % s1.active.length < s1.active.length :=
      Nat.mod_lt _ (by omega)
    have hmem := getD_mem_of_lt s1.active _ hpos
    set idx := s1.active.getD (c.1 % s1.active.length) 0 with hidx
    obtain ⟨hnle, hact, hsi, hbi, hnc, hstot, hsettot, hbnd⟩ := h1
    have hcge : 1 ≤ s1.active.count idx := List.count_pos_iff.mpr hmem
    have hcle : s1.active.count idx ≤ 1 := by
      have h2 := hbi idx
      by_cases hlt : idx < s1.nextChunk
      · rw [hsi idx, if_pos hlt] at h2
        omega
      · rw [hsi idx, if_neg hlt] at h2
        omega
    have hcnt1 : s1.active.count idx = 1 := by omega
    have hflen : (s1.active.filter (fun j => j != idx)).length + 1 =
        s1.active.length := by
      have := length_filter_ne s1.active idx
      omega
    refine ⟨hnle, ?_, ?_, ?_, ?_, ?_, ?_, ?_⟩
    · show (s1.active.filter (fun j => j != idx)).length ≤ MAX_CONCURRENT
      omega
    · intro i
      show startsOf (s1.trace ++ [SAct.settle idx c.2]) i = _
      rw [startsOf_append]
      show startsOf s1.trace i + 0 = if i < s1.nextChunk then 1 else 0
      rw [hsi i]
      omega
    · intro i
      show startsOf (s1.trace ++ [SAct.settle idx c.2]) i =
        settlesOf (s1.trace ++ [SAct.settle idx c.2]) i +
          (s1.active.filter (fun j => j != idx)).count i
      rw [startsOf_append, settlesOf_append, count_filter_ne]
      show startsOf s1.trace i + 0 =
        settlesOf s1.trace i + (if idx = i then 1 else 0) +
          (if i = idx then 0 else s1.active.count i)
      have h2 := hbi i
      by_cases hi : i = idx
      · subst hi
        rw [if_pos rfl, if_pos rfl]
        omega
      · rw [if_neg (show ¬ (idx = i) from fun hh => hi hh.symm), if_neg hi]
        omega
    · show completions (s1.trace ++ [SAct.settle idx c.2]) = 0
      rw [completions_append]
      show completions s1.trace + 0 = 0
      omega
    · show startsTotal (s1.trace ++ [SAct.settle idx c.2]) = s1.nextChunk
      rw [startsTotal_append]
      show startsTotal s1.trace + 0 = s1.nextChunk
      omega
    · show settlesTotal (s1.trace ++ [SAct.settle idx c.2]) +
        (s1.active.filter (fun j => j != idx)).length = s1.nextChunk
      rw [settlesTotal_append]
      show settlesTotal s1.trace + 1 +
        (s1.active.filter (fun j => j != idx)).length = s1.nextChunk
      omega
    · intro k
      show startsTotal ((s1.trace ++ [SAct.settle idx c.2]).take k) ≤
        settlesTotal ((s1.trace ++ [SAct.settle idx c.2]).take k) + MAX_CONCURRENT
      rcases take_append_single s1.trace (SAct.settle idx c.2) k with heq | heq
      · rw [heq]
        exact hbnd k
      · rw [heq, startsTotal_append, settlesTotal_append]
        show startsTotal s1.trace ≤ settlesTotal s1.trace + 1 + MAX_CONCURRENT
        have h1 := hbnd s1.trace.length
        rw [List.take_length] at h1
        omega

theorem schedLoopAux_spec (nc : Nat) (choice : Nat → Nat × Bool) :
    ∀ fuel k s, SInv nc s →
      (nc - s.nextChunk) + s.active.length ≤ fuel →
      SInv nc (schedLoopAux nc choice fuel k s)
      ∧ (schedLoopAux nc choice fuel k s).nextChunk = nc
      ∧ (schedLoopAux nc choice fuel k s).active = [] := by
  intro fuel
  induction fuel with
  | zero =>
    intro k s h hm
    have h1 : s.nextChunk = nc := by
      have := h.next_le
      omega
    have h2 : s.active = [] := by
      have : s.active.length = 0 := by omega
      exact List.length_eq_zero.mp this
    exact ⟨h, h1, h2⟩
  | succ fuel ih =>
    intro k s h hm
    rw [schedLoopAux]
    by_cases hg : s.nextChunk < nc ∨ s.active ≠ []
    · rw [if_pos hg]
      apply ih (k + 1) _ (raceStep_inv nc s (choice k) h)
      have := raceStep_measure nc s (choice k) h.next_le hg
      omega
    · rw [if_neg hg]
      push_neg at hg
      have h1 : s.nextChunk = nc := by
        have := h.next_le
        omega
      exact ⟨h, h1, hg.2⟩

theorem SInv_init (nc : Nat) : SInv nc ⟨0, [], []⟩ := by
  refine ⟨Nat.zero_le _, by simp, ?_, ?_, ?_, ?_, ?_, ?_⟩
  · intro i
    simp [startsOf]
  · intro i
    simp [startsOf, settlesOf]
  · simp [completions]
  · simp [startsTotal]
  · simp [settlesTotal]
  · intro k
    simp [startsTotal, settlesTotal]

theorem uploadAll_final (jobId : String) (files : List String)
    (choice : Nat → Nat × Bool) :
    SInv (mkChunks files).length
      (schedLoopAux (mkChunks files).length choice (mkChunks files).length 0 ⟨0, [], []⟩)
    ∧ (schedLoopAux (mkChunks files).length choice (mkChunks files).length 0
        ⟨0, [], []⟩).nextChunk = (mkChunks files).length
    ∧ (schedLoopAux (mkChunks files).length choice (mkChunks files).length 0
        ⟨0, [], []⟩).active = [] := by
  apply schedLoopAux_spec (mkChunks files).length choice (mkChunks files).length 0
    ⟨0, [], []⟩ (SInv_init _)
  simp

/-- Claim C3: for every job id, file list, and settle schedule, the trace
of `uploadAllChunked` never shows more than `MAX_CONCURRENT` chunk-upload
requests outstanding at once (on any prefix), issues the upload of every
chunk of the partition exactly once (and of no other chunk), observes
every chunk attempt settle exactly once — a failed settle merely continues
the batch, with no retry and no abort — and calls `completeJob` exactly
once, as the last action, strictly after every settle. -/
theorem uploadAll_bounded_once_complete (jobId : String) (files : List String)
    (choice : Nat → Nat × Bool) :
    (∀ k, startsTotal ((uploadAllChunked jobId files choice).trace.take k) ≤
      settlesTotal ((uploadAllChunked jobId files choice).trace.take k) + MAX_CONCURRENT)
    ∧ (∀ i, startsOf (uploadAllChunked jobId files choice).trace i =
        if i < (mkChunks files).length then 1 else 0)
    ∧ (∀ i, settlesOf (uploadAllChunked jobId files choice).trace i =
        if i < (mkChunks files).length then 1 else 0)
    ∧ completions (uploadAllChunked jobId files choice).trace = 1
    ∧ (uploadAllChunked jobId files choice).trace.getLast? =
        some SAct.callComplete := by
  obtain ⟨hinv, hnext, hact⟩ := uploadAll_final jobId files choice
  obtain ⟨hnle, hactle, hsi, hbi, hnc, hstot, hsettot, hbnd⟩ := hinv
  have htr : (uploadAllChunked jobId files choice).trace =
      (schedLoopAux (mkChunks files).length choice (mkChunks files).length 0
        ⟨0, [], []⟩).trace ++ [SAct.callComplete] := rfl
  rw [htr]
  set F := schedLoopAux (mkChunks files).length choice (mkChunks files).length 0
    ⟨0, [], []⟩ with hF
  refine ⟨?_, ?_, ?_, ?_, ?_⟩
  · intro k
    rcases take_append_single F.trace SAct.callComplete k with heq | heq
    · rw [heq]
      exact hbnd k
    · rw [heq, startsTotal_append, settlesTotal_append]
      show startsTotal F.trace + 0 ≤ settlesTotal F.trace + 0 + MAX_CONCURRENT
      have h1 := hbnd F.trace.length
      rw [List.take_length] at h1
      omega
  · intro i
    rw [startsOf_append]
    show startsOf F.trace i + 0 = if i < (mkChunks files).length then 1 else 0
    rw [hsi i, hnext, Nat.add_zero]
  · intro i
    rw [settlesOf_append]
    show settlesOf F.trace i + 0 = if i < (mkChunks files).length then 1 else 0
    have hb := hbi i
    rw [hact, List.count_nil] at hb
    have hs := hsi i
    rw [hnext] at hs
    by_cases hi : i < (mkChunks files).length
    · rw [if_pos hi] at hs ⊢
      omega
    · rw [if_neg hi] at hs ⊢
      omega
  · rw [completions_append]
    show completions F.trace + 1 = 1
    omega
  · exact List.getLast?_concat _

/-- Claim C10 (implicit): a rejection of the awaited upload pipeline —
whose only rejection path after job creation succeeds is the `completeJob`
wire call, since individual chunk failures are swallowed inside the
scheduler's `.catch` — lands in `analyze`'s catch block, which sets status
to `error`, records the failure message, and closes any open
subscription, whatever the status at that moment (including `complete`);
a resolved pipeline changes nothing.  The scheduler itself always reaches
its single trailing `completeJob` call, whatever the chunk outcomes. -/
theorem completeJob_failure_is_fatal (s : CtrlState) (msg : String)
    (jobId : String) (files : List String) (choice : Nat → Nat × Bool) :
    (analyzeAwaitUpload s (.error msg)).status = .error
    ∧ (analyzeAwaitUpload s (.error msg)).error = some msg
    ∧ (analyzeAwaitUpload s (.error msg)).esOpen = false
    ∧ analyzeAwaitUpload s (.ok ()) = s
    ∧ completions (uploadAllChunked jobId files choice).trace = 1
    ∧ (uploadAllChunked jobId files choice).trace.getLast? =
        some SAct.callComplete := by
  obtain ⟨hinv, hnext, hact⟩ := uploadAll_final jobId files choice
  have htr : (uploadAllChunked jobId files choice).trace =
      (schedLoopAux (mkChunks files).length choice (mkChunks files).length 0
        ⟨0, [], []⟩).trace ++ [SAct.callComplete] := rfl
  refine ⟨rfl, rfl, rfl, rfl, ?_, ?_⟩
  · rw [htr, completions_append]
    show completions (schedLoopAux (mkChunks files).length choice
      (mkChunks files).length 0 ⟨0, [], []⟩).trace + 1 = 1
    have := hinv.no_complete
    omega
  · rw [htr]
    exact List.getLast?_concat _
